import Mathlib

/-!
Verification of `tools.py`: filesystem, serialization and numeric helper
functions of a neural-network training pipeline.  Python values stored in
hyperparameter / log dictionaries are modelled by `HValue`; dictionaries by
association lists with Python `dict` semantics (unique keys, first-match
lookup, in-place update); the filesystem by a list of directories, each a
list of named files; fallible Python code by `Except String`.
Floating-point numbers are idealized as rationals, and `np.sqrt` results are
passed to the orthogonal-matrix generator as oracle inputs constrained to be
exact nonnegative square roots.
-/

/-- A JSON / pickle-level Python value: integers, floats (idealized as
rationals), strings, booleans, a `np.random.RandomState` generator
(modelled by the seed it was constructed from), and lists of numbers
(used for the `perf_min` log entry). -/
inductive HValue where
  | int : ℤ → HValue
  | float : ℚ → HValue
  | str : String → HValue
  | bool : Bool → HValue
  | rng : ℤ → HValue
  | numList : List ℚ → HValue
  deriving DecidableEq, Repr

/-- A Python dictionary with string keys, as an association list with
unique keys. -/
abbrev HP := List (String × HValue)

/-- Python `d[k]` read access: first binding of `k`, if any. -/
def dictLookup : HP → String → Option HValue
  | [], _ => none
  | (k', v) :: rest, k => if k' = k then some v else dictLookup rest k

/-- Python `d[k] = v` assignment: replace the first binding of `k`, or append. -/
def dictSet : HP → String → HValue → HP
  | [], k, v => [(k, v)]
  | (k', v') :: rest, k, v =>
      if k' = k then (k, v) :: rest else (k', v') :: dictSet rest k v

/-- Python `d.pop(k)` removal (of every binding of `k`; a Python dict has at most
one). -/
def dictErase : HP → String → HP
  | [], _ => []
  | (k', v) :: rest, k =>
      if k' = k then dictErase rest k else (k', v) :: dictErase rest k

/-- Whether a value is JSON-serializable (`json.dump` raises on a
`RandomState` object). -/
def jsonable : HValue → Bool
  | .rng _ => false
  | _ => true

/-- Contents of one file: a JSON-serialized dictionary (`hparams.json`), a
pickle-serialized dictionary (`log.pkl`), or raw bytes we never open
(checkpoint files and the like). -/
inductive FileContent where
  | jsonFile : HP → FileContent
  | pklFile : HP → FileContent
  | raw : FileContent
  deriving DecidableEq

/-- One directory: its path and its `os.listdir` entries with contents. -/
structure FSDir where
  path : String
  files : List (String × FileContent)
  deriving DecidableEq

/-- The file tree under a root directory, in `os.walk` order. -/
abbrev FS := List FSDir

/-- Resolve a directory path (first match, paths are unique on a real
filesystem). -/
def dirLookup : FS → String → Option FSDir
  | [], _ => none
  | d :: rest, p => if d.path = p then some d else dirLookup rest p

/-- Look up a named file inside a directory's entry list. -/
def fileLookup : List (String × FileContent) → String → Option FileContent
  | [], _ => none
  | (n, c) :: rest, f => if n = f then some c else fileLookup rest f

/-- Content of the file `fname` inside directory `dir`, if both exist. -/
def fileContent (fs : FS) (dir fname : String) : Option FileContent :=
  (dirLookup fs dir).bind (fun d => fileLookup d.files fname)

/-- Whether `os.path.isfile(os.path.join(dir, fname))` holds. -/
def hasFile (fs : FS) (dir fname : String) : Bool :=
  (fileContent fs dir fname).isSome

/-- Replace (or create) the file `fname` of directory `dir`. -/
def fileSet : List (String × FileContent) → String → FileContent →
    List (String × FileContent)
  | [], f, c => [(f, c)]
  | (n, c') :: rest, f, c =>
      if n = f then (f, c) :: rest else (n, c') :: fileSet rest f c

/-- Model of `open(os.path.join(dir, fname), 'wb')` followed by a full write. -/
def fsWriteFile (fs : FS) (dir fname : String) (c : FileContent) : FS :=
  fs.map (fun d => if d.path = dir then ⟨d.path, fileSet d.files fname c⟩ else d)

/-- Model of `load_log`: return `None` when `log.pkl` is absent, otherwise unpickle
it. -/
def load_log (fs : FS) (train_dir : String) : Except String (Option HP) :=
  match fileContent fs train_dir "log.pkl" with
  | none => .ok none
  | some (.pklFile log) => .ok (some log)
  | some _ => .error "UnpicklingError"

/-- Model of `load_hparams`: return `None` when `hparams.json` is absent; otherwise
parse it and attach a fresh generator seeded at `seed + 1000`. -/
def load_hparams (fs : FS) (save_dir : String) : Except String (Option HP) :=
  match fileContent fs save_dir "hparams.json" with
  | none => .ok none
  | some (.jsonFile hp) =>
      match dictLookup hp "seed" with
      | some (.int s) => .ok (some (dictSet hp "rng" (.rng (s + 1000))))
      | some _ => .error "TypeError: seed is not an integer"
      | none => .error "KeyError: seed"
  | some _ => .error "JSONDecodeError"

/-- Model of `save_hparams`: drop the non-serializable `rng` field from a copy and
JSON-dump the rest to `hparams.json` in `save_dir`. -/
def save_hparams (hp : HP) (save_dir : String) (fs : FS) : Except String FS :=
  match dictLookup hp "rng" with
  | none => .error "KeyError: rng"
  | some _ =>
      if (dictErase hp "rng").all (fun kv => jsonable kv.2) then
        match dirLookup fs save_dir with
        | some _ => .ok (fsWriteFile fs save_dir "hparams.json"
            (.jsonFile (dictErase hp "rng")))
        | none => .error "FileNotFoundError"
      else .error "TypeError: not JSON serializable"

/-- Model of `_contain_model_file`: some `os.listdir` entry has `model.ckpt` as a
substring of its name. -/
def contain_model_file (d : FSDir) : Bool :=
  d.files.any (fun f => decide ("model.ckpt".toList <:+: f.1.toList))

/-- Model of `valid_model_dirs`: the walked directories that contain a checkpoint
marker. -/
def valid_model_dirs (fs : FS) : List FSDir :=
  fs.filter contain_model_file

/-- The short-circuiting
`all(hp[key] == val for key, val in hp_target.items())`: a missing key
raises `KeyError` unless an earlier pair already compared unequal. -/
def allMatch (hp : HP) : List (String × HValue) → Except String Bool
  | [] => .ok true
  | (k, v) :: rest =>
      match dictLookup hp k with
      | none => .error "KeyError"
      | some w => if w = v then allMatch hp rest else .ok false

/-- The loop body's test on one directory's loaded hyperparameters: a
`None` dict is subscripted (`TypeError`) unless the target is empty, in
which case `all` of nothing is `True`. -/
def keepCheck (hpOpt : Option HP) (hp_target : List (String × HValue)) :
    Except String Bool :=
  match hpOpt with
  | some hp => allMatch hp hp_target
  | none =>
      if hp_target.isEmpty then .ok true
      else .error "TypeError: NoneType is not subscriptable"

/-- One `find_all_models` loop iteration followed by the rest: load the
directory's hyperparameters and keep it when every target pair matches;
any exception aborts the whole loop. -/
def find_all_models_aux (fs : FS) (hp_target : List (String × HValue)) :
    List FSDir → Except String (List String × List (Option HP))
  | [] => .ok ([], [])
  | d :: rest =>
      match load_hparams fs d.path with
      | .error e => .error e
      | .ok hpOpt =>
          match keepCheck hpOpt hp_target with
          | .error e => .error e
          | .ok keep =>
              match find_all_models_aux fs hp_target rest with
              | .error e => .error e
              | .ok (ds, hps) =>
                  if keep then .ok (d.path :: ds, hpOpt :: hps)
                  else .ok (ds, hps)

/-- Model of `find_all_models`: filter the checkpoint directories by the target
hyperparameters. -/
def find_all_models (fs : FS) (hp_target : List (String × HValue)) :
    Except String (List String × List (Option HP)) :=
  find_all_models_aux fs hp_target (valid_model_dirs fs)

/-- The directories component of a successful `find_all_models` call. -/
def find_all_models_dirs (fs : FS) (hp_target : List (String × HValue)) :
    Option (List String) :=
  (find_all_models fs hp_target).toOption.map (fun r => r.1)

/-- Model of `find_model`: first matching directory, after the performance check
`log['perf_min'][-1] < hp['target_perf']` (whose outcome only selects a
console warning, but whose evaluation can raise). -/
def find_model (fs : FS) (hp_target : List (String × HValue)) :
    Except String (Option (String × HP)) :=
  match find_all_models fs hp_target with
  | .error e => .error e
  | .ok (model_dirs, hps) =>
      match model_dirs, hps with
      | [], _ => .ok none
      | _ :: _, [] => .error "IndexError"
      | d :: _, hpOpt :: _ =>
          match load_log fs d with
          | .error e => .error e
          | .ok none => .error "TypeError: NoneType is not subscriptable"
          | .ok (some log) =>
              match dictLookup log "perf_min" with
              | none => .error "KeyError: perf_min"
              | some (.numList l) =>
                  match l.getLast? with
                  | none => .error "IndexError: empty perf_min"
                  | some _ =>
                      match hpOpt with
                      | none => .error "TypeError: NoneType is not subscriptable"
                      | some hp =>
                          match dictLookup hp "target_perf" with
                          | some (.int _) => .ok (some (d, hp))
                          | some (.float _) => .ok (some (d, hp))
                          | some _ => .error "TypeError: comparison"
                          | none => .error "KeyError: target_perf"
              | some _ => .error "TypeError: perf_min is not a sequence"

/-! ### Heap model of `save_hparams`

Python dictionaries are mutable objects; the caller passes a reference.
To state that `save_hparams` does not mutate its argument we refine the
function to an explicit heap of dictionaries: `hparams_copy = hparams.copy()`
allocates a fresh reference and `.pop('rng')` mutates only that copy. -/

/-- A heap of Python dict objects, addressed by references. -/
abbrev Heap := List (ℕ × HP)

/-- Dereference a dict object. -/
def heapGet : Heap → ℕ → Option HP
  | [], _ => none
  | (r', d) :: rest, r => if r' = r then some d else heapGet rest r

/-- Overwrite the dict object behind a reference. -/
def heapSet : Heap → ℕ → HP → Heap
  | [], r, d => [(r, d)]
  | (r', d') :: rest, r, d =>
      if r' = r then (r, d) :: rest else (r', d') :: heapSet rest r d

/-- A reference not yet used by any object of the heap. -/
def freshRef (h : Heap) : ℕ :=
  (h.map (fun p => p.1)).foldr max 0 + 1

/-- Model of `save_hparams` on the heap: copy the dict behind `r`, pop `rng` from
the copy only, and JSON-dump the copy.  Returns the final heap and
filesystem. -/
def save_hparams_heap (h : Heap) (r : ℕ) (save_dir : String) (fs : FS) :
    Except String (Heap × FS) :=
  match heapGet h r with
  | none => .error "NameError"
  | some hp =>
      let r2 := freshRef h
      let h1 := h ++ [(r2, hp)]
      match dictLookup hp "rng" with
      | none => .error "KeyError: rng"
      | some _ =>
          let h2 := heapSet h1 r2 (dictErase hp "rng")
          if (dictErase hp "rng").all (fun kv => jsonable kv.2) then
            match dirLookup fs save_dir with
            | some _ => .ok (h2, fsWriteFile fs save_dir "hparams.json"
                (.jsonFile (dictErase hp "rng")))
            | none => .error "FileNotFoundError"
          else .error "TypeError: not JSON serializable"

/-! ### `gen_feed_dict` -/

/-- A trial's arrays: the input tensor `x` as a total function on
`(time, sample, feature)` indices together with its declared shape, plus
the target and cost-mask arrays, carried opaquely. -/
structure Trial (Y M : Type) where
  x : ℕ → ℕ → ℕ → ℚ
  xShape : ℕ × ℕ × ℕ
  y : Y
  c_mask : M

/-- The tensors fed to `model.x`, `model.y`, `model.c_mask`. -/
structure FeedDict (Y M : Type) where
  x : ℕ → ℕ → ℕ → ℚ
  xShape : ℕ × ℕ × ℕ
  y : Y
  c_mask : M

/-- Model of `np.zeros`: the all-zero array. -/
def np_zeros3 : ℕ → ℕ → ℕ → ℚ := fun _ _ _ => 0

/-- Tail of `np.argmax`: best value and its (first) index so far. -/
def argmaxAux : List ℚ → ℕ → ℕ → ℚ → ℕ
  | [], _, bi, _ => bi
  | a :: rest, i, bi, bv =>
      if bv < a then argmaxAux rest (i + 1) i a else argmaxAux rest (i + 1) bi bv

/-- Model of `np.argmax` on a one-dimensional array: index of the first maximal
entry (`0` on the empty array, where numpy raises instead; callers guard
emptiness separately). -/
def np_argmax : List ℚ → ℕ
  | [] => 0
  | a :: rest => argmaxAux rest 1 0 a

/-- The rule-indicator suffix `trial.x[0, i, rule_start:]` of sample `i`,
for an input of feature width `F`. -/
def ruleSuffix (xin : ℕ → ℕ → ℕ → ℚ) (R F i : ℕ) : List ℚ :=
  (List.range (F - R)).map (fun j => xin 0 i (R + j))

/-- The active block offset `ind_rule * rule_start` of sample `i`. -/
def ruleOffset (xin : ℕ → ℕ → ℕ → ℚ) (R F i : ℕ) : ℕ :=
  np_argmax (ruleSuffix xin R F i) * R

/-- One iteration of the `multi` re-encoding loop: numpy raises on an
empty argmax, and the slice assignment
`x[:, i, i_start:i_start+R] = trial.x[:, i, :R]` raises when the target
slice is clipped short of width `R`. -/
def assign_rule_block (R C F : ℕ) (xin : ℕ → ℕ → ℕ → ℚ)
    (acc : ℕ → ℕ → ℕ → ℚ) (i : ℕ) : Except String (ℕ → ℕ → ℕ → ℚ) :=
  if F ≤ R then .error "ValueError: argmax of an empty sequence"
  else
    let istart := ruleOffset xin R F i
    if istart + R ≤ R * C then
      .ok (fun t i' f =>
        if i' = i ∧ istart ≤ f ∧ f < istart + R then xin t i' (f - istart)
        else acc t i' f)
    else .error "ValueError: could not broadcast"

/-- Model of `gen_feed_dict`: pass the trial through unchanged in `normal` mode;
re-encode the input into per-rule blocks in `multi` mode; any other
`in_type` leaves `feed_dict` unassigned (`UnboundLocalError`). -/
def gen_feed_dict {Y M : Type} (trial : Trial Y M) (hparams : HP) :
    Except String (FeedDict Y M) :=
  match dictLookup hparams "in_type" with
  | none => .error "KeyError: in_type"
  | some v =>
      if v = .str "normal" then
        .ok ⟨trial.x, trial.xShape, trial.y, trial.c_mask⟩
      else if v = .str "multi" then
        match dictLookup hparams "rule_start", dictLookup hparams "n_rule" with
        | some (.int rs), some (.int nr) =>
            if rs < 0 ∨ nr < 0 then .error "ValueError: negative dimensions"
            else
              let R := rs.toNat
              let C := nr.toNat
              match trial.xShape with
              | (n_time, batch_size, fwidth) => do
                  let x ← (List.range batch_size).foldlM
                    (assign_rule_block R C fwidth trial.x) np_zeros3
                  .ok ⟨x, (n_time, batch_size, R * C), trial.y, trial.c_mask⟩
        | _, _ => .error "KeyError"
      else .error "UnboundLocalError: feed_dict"

/-! ### `gen_ortho_matrix`

The generator is embedded over exact rational arithmetic.  The random
draws of iteration `n` are a stream `draws n : ℕ → ℚ` (of which the code
reads the first `dim - n + 1` components), and the floating-point value
`np.sqrt((x*x).sum())` of iteration `n` is the oracle input `sqrts n`,
constrained in the theorems to be an exact nonnegative square root of the
sum of squares of the draw. -/

/-- Model of `np.sign` on a scalar. -/
def npSign (q : ℚ) : ℚ := if 0 < q then 1 else if q < 0 then -1 else 0

/-- The vector `x` after the roundoff-avoiding perturbation
`x[0] += D * sqrt((x*x).sum())`. -/
def houseVec (x : ℕ → ℚ) (s : ℚ) : ℕ → ℚ :=
  fun j => if j = 0 then x 0 + npSign (x 0) * s else x j

/-- Sum of squares of the first `k` components, `(x*x).sum()` for a draw
of size `k`. -/
def sumSq (k : ℕ) (x : ℕ → ℚ) : ℚ :=
  ∑ j ∈ Finset.range k, x j * x j

/-- Entry `(a, b)` of the matrix `mat` of iteration `n`: an identity
entry outside the trailing block (rows and columns from `n - 1` on), and
inside it the Householder factor
`Hx = -D * (I - 2 * outer(x, x) / (x*x).sum())` built from the perturbed
draw. -/
def stepEntry (dim n : ℕ) (x : ℕ → ℚ) (s : ℚ) (a b : ℕ) : ℚ :=
  if n - 1 ≤ a ∧ n - 1 ≤ b then
    -npSign (x 0) * ((if a = b then (1 : ℚ) else 0)
      - 2 * houseVec x s (a - (n - 1)) * houseVec x s (b - (n - 1))
        / sumSq (dim - n + 1) (houseVec x s))
  else if a = b then 1 else 0

/-- Iteration `n` of the loop: the full `dim × dim` matrix `mat`, an
identity with the trailing `(dim-n+1) × (dim-n+1)` block replaced by the
Householder factor. -/
def gen_ortho_step (dim n : ℕ) (x : ℕ → ℚ) (s : ℚ) :
    Matrix (Fin dim) (Fin dim) ℚ :=
  Matrix.of fun i j : Fin dim => stepEntry dim n x s i.val j.val

/-- Model of `gen_ortho_matrix`: start from the identity and accumulate the
Householder step of each iteration `n ∈ range(1, dim)` by right
multiplication. -/
def gen_ortho_matrix (dim : ℕ) (draws : ℕ → ℕ → ℚ) (sqrts : ℕ → ℚ) :
    Matrix (Fin dim) (Fin dim) ℚ :=
  (List.range' 1 (dim - 1)).foldl
    (fun H n => H * gen_ortho_step dim n (draws n) (sqrts n)) 1

/-! ### Dictionary, filesystem and heap lemmas -/

theorem dictLookup_dictSet_self (d : HP) (k : String) (v : HValue) :
    dictLookup (dictSet d k v) k = some v := by
  induction d with
  | nil => simp [dictSet, dictLookup]
  | cons p rest ih =>
      rcases p with ⟨k', v'⟩
      by_cases h : k' = k
      · simp [dictSet, h, dictLookup]
      · simp [dictSet, h, dictLookup, ih]

theorem dictLookup_dictSet_ne (d : HP) (k k' : String) (v : HValue)
    (h : k' ≠ k) : dictLookup (dictSet d k v) k' = dictLookup d k' := by
  have hkk : ¬ k = k' := fun hh => h hh.symm
  induction d with
  | nil => simp [dictSet, dictLookup, hkk]
  | cons p rest ih =>
      rcases p with ⟨k'', v''⟩
      by_cases hk : k'' = k
      · subst hk
        simp [dictSet, dictLookup, hkk]
      · simp [dictSet, hk, dictLookup, ih]

theorem dictLookup_dictErase_ne (d : HP) (k k' : String) (h : k' ≠ k) :
    dictLookup (dictErase d k) k' = dictLookup d k' := by
  induction d with
  | nil => simp [dictErase, dictLookup]
  | cons p rest ih =>
      rcases p with ⟨k'', v''⟩
      by_cases hk : k'' = k
      · subst hk
        have hne : ¬ k'' = k' := fun hh => h hh.symm
        simp [dictErase, dictLookup, hne, ih]
      · simp only [dictErase, hk, if_false, if_neg hk]
        by_cases hk' : k'' = k'
        · simp [dictLookup, hk']
        · simp [dictLookup, hk', ih]

theorem mem_dictErase {d : HP} {k : String} {kv : String × HValue}
    (h : kv ∈ dictErase d k) : kv ∈ d ∧ kv.1 ≠ k := by
  induction d with
  | nil => simp [dictErase] at h
  | cons p rest ih =>
      rcases p with ⟨k'', v''⟩
      by_cases hk : k'' = k
      · rw [dictErase, if_pos hk] at h
        rcases ih h with ⟨h1, h2⟩
        exact ⟨List.mem_cons_of_mem _ h1, h2⟩
      · rw [dictErase, if_neg hk] at h
        rcases List.mem_cons.mp h with h1 | h1
        · subst h1
          exact ⟨List.mem_cons_self _ _, hk⟩
        · rcases ih h1 with ⟨h2, h3⟩
          exact ⟨List.mem_cons_of_mem _ h2, h3⟩

theorem fileLookup_fileSet_self (files : List (String × FileContent))
    (f : String) (c : FileContent) :
    fileLookup (fileSet files f c) f = some c := by
  induction files with
  | nil => simp [fileSet, fileLookup]
  | cons p rest ih =>
      rcases p with ⟨n, c'⟩
      by_cases h : n = f
      · simp [fileSet, h, fileLookup]
      · simp [fileSet, h, fileLookup, ih]

theorem dirLookup_fsWriteFile_self (fs : FS) (dir f : String) (c : FileContent) :
    dirLookup (fsWriteFile fs dir f c) dir =
      (dirLookup fs dir).map (fun d => ⟨d.path, fileSet d.files f c⟩) := by
  induction fs with
  | nil => simp [fsWriteFile, dirLookup]
  | cons d rest ih =>
      by_cases h : d.path = dir
      · simp [fsWriteFile, dirLookup, h]
      · rw [fsWriteFile, List.map_cons, if_neg h, dirLookup, if_neg h,
          dirLookup, if_neg h]
        exact ih

theorem heapGet_le_foldr {h : Heap} {r : ℕ} {d : HP}
    (hg : heapGet h r = some d) :
    r ≤ (h.map (fun p => p.1)).foldr max 0 := by
  induction h with
  | nil => simp [heapGet] at hg
  | cons p rest ih =>
      rcases p with ⟨r', d'⟩
      rw [heapGet] at hg
      rw [List.map_cons, List.foldr_cons]
      by_cases hr : r' = r
      · subst hr
        exact le_max_left _ _
      · rw [if_neg hr] at hg
        exact le_trans (ih hg) (le_max_right _ _)

theorem heapGet_lt_freshRef {h : Heap} {r : ℕ} {d : HP}
    (hg : heapGet h r = some d) : r < freshRef h := by
  have := heapGet_le_foldr hg
  rw [freshRef]
  omega

theorem heapGet_append_ne (h : Heap) (p : ℕ × HP) (r : ℕ) (hr : r ≠ p.1) :
    heapGet (h ++ [p]) r = heapGet h r := by
  induction h with
  | nil =>
      rcases p with ⟨r2, d⟩
      simp only [List.nil_append, heapGet]
      rw [if_neg (fun hh => hr hh.symm)]
  | cons q rest ih =>
      rcases q with ⟨r', d'⟩
      rw [List.cons_append, heapGet, heapGet]
      by_cases hq : r' = r
      · rw [if_pos hq, if_pos hq]
      · rw [if_neg hq, if_neg hq]
        exact ih

theorem heapGet_heapSet_ne (h : Heap) (r2 r : ℕ) (v : HP) (hr : r ≠ r2) :
    heapGet (heapSet h r2 v) r = heapGet h r := by
  induction h with
  | nil =>
      simp only [heapSet, heapGet]
      rw [if_neg (fun hh => hr hh.symm)]
  | cons q rest ih =>
      rcases q with ⟨r', d'⟩
      rw [heapSet]
      by_cases hq : r' = r2
      · subst hq
        rw [if_pos rfl, heapGet, if_neg (fun hh => hr hh.symm), heapGet,
          if_neg (fun hh => hr hh.symm)]
      · rw [if_neg hq, heapGet, heapGet]
        by_cases hq' : r' = r
        · rw [if_pos hq', if_pos hq']
        · rw [if_neg hq', if_neg hq']
          exact ih

/-! ### C7: missing files -/

/-- C7: for every directory, if `log.pkl` (resp. `hparams.json`) does not
exist there, `load_log` (resp. `load_hparams`) returns `None` and raises no
exception. -/
theorem load_missing_file_returns_none (fs : FS) (dir : String) :
    (hasFile fs dir "log.pkl" = false → load_log fs dir = .ok none) ∧
    (hasFile fs dir "hparams.json" = false → load_hparams fs dir = .ok none) := by
  constructor
  · intro h
    cases hc : fileContent fs dir "log.pkl" with
    | none => simp [load_log, hc]
    | some c => rw [hasFile, hc] at h; simp at h
  · intro h
    cases hc : fileContent fs dir "hparams.json" with
    | none => simp [load_hparams, hc]
    | some c => rw [hasFile, hc] at h; simp at h

/-- A directory with a checkpoint marker but neither a log nor a
hyperparameter file. -/
def egBareFS : FS := [⟨"root/model", [("data.txt", .raw)]⟩]

/-- Witness for C7: on a concrete directory without `log.pkl` and
`hparams.json`, both loaders return `None`. -/
theorem load_missing_file_returns_none_witness :
    load_log egBareFS "root/model" = .ok none ∧
    load_hparams egBareFS "root/model" = .ok none :=
  ⟨(load_missing_file_returns_none egBareFS "root/model").1 (by rfl),
   (load_missing_file_returns_none egBareFS "root/model").2 (by rfl)⟩

/-! ### C10: `save_hparams` does not mutate its argument -/

/-- C10: in the heap refinement of `save_hparams`, a successful call leaves
the caller's dictionary object untouched: it is still the same mapping and
still contains its `rng` field (the `pop` hits only the internal copy). -/
theorem save_hparams_heap_no_mutation (h : Heap) (r : ℕ) (save_dir : String)
    (fs : FS) (hp : HP) (out : Heap × FS)
    (hget : heapGet h r = some hp)
    (hrun : save_hparams_heap h r save_dir fs = .ok out) :
    heapGet out.1 r = some hp ∧ ∃ v, dictLookup hp "rng" = some v := by
  simp only [save_hparams_heap, hget] at hrun
  cases hrng : dictLookup hp "rng" with
  | none => rw [hrng] at hrun; exact absurd hrun (by simp)
  | some v =>
      rw [hrng] at hrun
      refine ⟨?_, v, rfl⟩
      by_cases hall : (dictErase hp "rng").all (fun kv => jsonable kv.2) = true
      · rw [if_pos hall] at hrun
        cases hdl : dirLookup fs save_dir with
        | none => rw [hdl] at hrun; exact absurd hrun (by simp)
        | some d0 =>
            rw [hdl] at hrun
            have hout : out.1 =
                heapSet (h ++ [(freshRef h, hp)]) (freshRef h)
                  (dictErase hp "rng") := by
              injection hrun with hh
              rw [← hh]
            have hfresh : r ≠ freshRef h :=
              Nat.ne_of_lt (heapGet_lt_freshRef hget)
            rw [hout, heapGet_heapSet_ne _ _ _ _ hfresh,
              heapGet_append_ne _ _ _ hfresh, hget]
      · rw [if_neg hall] at hrun
        exact absurd hrun (by simp)

/-- A one-object heap whose dictionary carries a generator, and a
filesystem with the target directory present. -/
def egHeap : Heap := [(0, [("seed", .int 3), ("rng", .rng 3)])]

/-- Witness for C10: saving the dictionary of `egHeap` leaves the caller's
object unchanged. -/
theorem save_hparams_heap_no_mutation_witness :
    heapGet (heapSet (egHeap ++ [(freshRef egHeap, [("seed", .int 3), ("rng", .rng 3)])])
        (freshRef egHeap) (dictErase [("seed", .int 3), ("rng", .rng 3)] "rng"),
      fsWriteFile egBareFS "root/model" "hparams.json"
        (.jsonFile (dictErase [("seed", .int 3), ("rng", .rng 3)] "rng"))).1 0 =
      some [("seed", .int 3), ("rng", .rng 3)] ∧
    ∃ v, dictLookup [("seed", .int 3), ("rng", .rng 3)] "rng" = some v :=
  save_hparams_heap_no_mutation egHeap 0 "root/model" egBareFS
    [("seed", .int 3), ("rng", .rng 3)] _ (by rfl) (by rfl)

/-! ### C3: save/load round trip -/

/-- C3: saving a hyperparameter mapping with a generator field `rng` and an
integer field `seed`, then loading it from the same directory, yields a
mapping that agrees with the original on every field except `rng`, whose
value is a generator freshly seeded with `seed + 1000`. -/
theorem save_load_hparams_roundtrip (hp : HP) (save_dir : String)
    (fs fs' : FS) (r s : ℤ)
    (hrng : dictLookup hp "rng" = some (.rng r))
    (hseed : dictLookup hp "seed" = some (.int s))
    (hser : ∀ kv ∈ hp, kv.1 ≠ "rng" → jsonable kv.2 = true)
    (hsave : save_hparams hp save_dir fs = .ok fs') :
    load_hparams fs' save_dir =
      .ok (some (dictSet (dictErase hp "rng") "rng" (.rng (s + 1000)))) ∧
    dictLookup (dictSet (dictErase hp "rng") "rng" (.rng (s + 1000))) "rng" =
      some (.rng (s + 1000)) ∧
    ∀ k, k ≠ "rng" →
      dictLookup (dictSet (dictErase hp "rng") "rng" (.rng (s + 1000))) k =
        dictLookup hp k := by
  have hall : (dictErase hp "rng").all (fun kv => jsonable kv.2) = true := by
    rw [List.all_eq_true]
    intro kv hkv
    rcases mem_dictErase hkv with ⟨h1, h2⟩
    exact hser kv h1 h2
  simp only [save_hparams, hrng, hall, if_true] at hsave
  cases hdl : dirLookup fs save_dir with
  | none => rw [hdl] at hsave; exact absurd hsave (by simp)
  | some d0 =>
      rw [hdl] at hsave
      have hfs' : fs' = fsWriteFile fs save_dir "hparams.json"
          (.jsonFile (dictErase hp "rng")) := by
        injection hsave with hh
        rw [← hh]
      subst hfs'
      refine ⟨?_, dictLookup_dictSet_self _ _ _, ?_⟩
      · have hfc : fileContent
            (fsWriteFile fs save_dir "hparams.json"
              (.jsonFile (dictErase hp "rng"))) save_dir "hparams.json" =
            some (.jsonFile (dictErase hp "rng")) := by
          rw [fileContent, dirLookup_fsWriteFile_self, hdl]
          simp [fileLookup_fileSet_self]
        have hseed' : dictLookup (dictErase hp "rng") "seed" = some (.int s) := by
          rw [dictLookup_dictErase_ne _ _ _ (by decide), hseed]
        simp [load_hparams, hfc, hseed']
      · intro k hk
        rw [dictLookup_dictSet_ne _ _ _ _ hk, dictLookup_dictErase_ne _ _ _ hk]

/-- A concrete hyperparameter dictionary with a generator and a seed. -/
def egHP : HP := [("seed", .int 7), ("rng", .rng 7), ("activation", .str "tanh")]

/-- Witness for C3: round-tripping `egHP` through a directory of
`egBareFS` reproduces every field but `rng`, which is reseeded at
`7 + 1000`. -/
theorem save_load_hparams_roundtrip_witness :
    load_hparams
        (fsWriteFile egBareFS "root/model" "hparams.json"
          (.jsonFile (dictErase egHP "rng"))) "root/model" =
      .ok (some (dictSet (dictErase egHP "rng") "rng" (.rng (7 + 1000)))) ∧
    dictLookup (dictSet (dictErase egHP "rng") "rng" (.rng (7 + 1000))) "rng" =
      some (.rng (7 + 1000)) ∧
    ∀ k, k ≠ "rng" →
      dictLookup (dictSet (dictErase egHP "rng") "rng" (.rng (7 + 1000))) k =
        dictLookup egHP k :=
  save_load_hparams_roundtrip egHP "root/model" egBareFS _ 7 7
    (by rfl) (by rfl)
    (by decide)
    (by rfl)

/-! ### C9: unknown `in_type` -/

/-- C9: when the `in_type` field is neither `normal` nor `multi`, the local
`feed_dict` is never assigned, so `gen_feed_dict` raises instead of
returning a feed dictionary. -/
theorem gen_feed_dict_unknown_in_type {Y M : Type} (trial : Trial Y M)
    (hparams : HP) (v : HValue)
    (hin : dictLookup hparams "in_type" = some v)
    (hnormal : v ≠ .str "normal") (hmulti : v ≠ .str "multi") :
    gen_feed_dict trial hparams = .error "UnboundLocalError: feed_dict" := by
  rw [gen_feed_dict, hin]
  simp only [if_neg hnormal, if_neg hmulti]

/-- A trivial trial used by concrete feed-dict evaluations. -/
def egTrivialTrial : Trial Unit Unit :=
  ⟨fun _ _ _ => 0, (0, 0, 0), (), ()⟩

/-- Witness for C9: a concrete `in_type` of `"bogus"` raises. -/
theorem gen_feed_dict_unknown_in_type_witness :
    gen_feed_dict egTrivialTrial [("in_type", .str "bogus")] =
      .error "UnboundLocalError: feed_dict" :=
  gen_feed_dict_unknown_in_type egTrivialTrial [("in_type", .str "bogus")]
    (.str "bogus") (by rfl) (by decide) (by decide)

/-! ### C2: `find_all_models` filtering -/

/-- Python `==` on two dictionaries: the same keys with the same values
(order-insensitive on unique-key association lists). -/
def dictEquiv (a b : HP) : Bool :=
  a.all (fun kv => dictLookup b kv.1 = some kv.2) &&
  b.all (fun kv => dictLookup a kv.1 = some kv.2)

/-- Modelled from the spec's words, for comparison with `find_all_models`:
the checkpoint directories whose STORED hyperparameter mapping (the
`hparams.json` contents) exactly equals the target mapping. -/
def find_all_models_exact_spec (fs : FS) (hp_target : List (String × HValue)) :
    List String :=
  ((valid_model_dirs fs).filter (fun d =>
    match fileContent fs d.path "hparams.json" with
    | some (.jsonFile m) => dictEquiv m hp_target
    | _ => false)).map (fun d => d.path)

/-- Whether a loaded (possibly absent) hyperparameter dict agrees with
every pair of the target: the value the loop's `all(...)` yields when it
raises nothing. -/
def loadedMatches (hpOpt : Option HP) (hp_target : List (String × HValue)) :
    Bool :=
  match hpOpt with
  | some hp => hp_target.all (fun kv => dictLookup hp kv.1 = some kv.2)
  | none => hp_target.isEmpty

/-- Whether a checkpoint directory is kept by the loop of
`find_all_models`: its loaded hyperparameters (stored ones plus the fresh
`rng`) agree with every pair of the target. -/
def matchesTarget (fs : FS) (hp_target : List (String × HValue))
    (d : FSDir) : Bool :=
  match load_hparams fs d.path with
  | .ok hpOpt => loadedMatches hpOpt hp_target
  | .error _ => false


theorem allMatch_ok {hp : HP} {t : List (String × HValue)} {b : Bool}
    (h : allMatch hp t = .ok b) :
    b = t.all (fun kv => dictLookup hp kv.1 = some kv.2) := by
  induction t with
  | nil =>
      rw [allMatch] at h
      injection h with hh
      simp [← hh]
  | cons kv rest ih =>
      rcases kv with ⟨k, v⟩
      rw [allMatch] at h
      split at h
      · exact Except.noConfusion h
      · next w heq =>
          split at h
          · next hw =>
              subst hw
              rw [List.all_cons, heq, ← ih h]
              simp
          · next hw =>
              injection h with hh
              subst hh
              rw [List.all_cons, heq]
              simp [fun hc : w = v => hw hc]

theorem keepCheck_ok {hpOpt : Option HP} {t : List (String × HValue)} {b : Bool}
    (h : keepCheck hpOpt t = .ok b) : b = loadedMatches hpOpt t := by
  cases hpOpt with
  | some hp => exact allMatch_ok h
  | none =>
      rw [keepCheck] at h
      rw [loadedMatches]
      split at h
      · next ht =>
          injection h with hh
          rw [← hh, ht]
      · exact Except.noConfusion h

theorem find_all_models_aux_dirs (fs : FS) (t : List (String × HValue)) :
    ∀ (l : List FSDir) (dirs : List String) (hps : List (Option HP)),
      find_all_models_aux fs t l = .ok (dirs, hps) →
      dirs = (l.filter (matchesTarget fs t)).map (fun d => d.path) := by
  intro l
  induction l with
  | nil =>
      intro dirs hps h
      rw [find_all_models_aux] at h
      injection h with hh
      injection hh with h1 h2
      rw [← h1]
      rfl
  | cons d rest ih =>
      intro dirs hps h
      rw [find_all_models_aux] at h
      split at h
      · exact Except.noConfusion h
      · next hpOpt heq1 =>
          split at h
          · exact Except.noConfusion h
          · next keep heq2 =>
              split at h
              · exact Except.noConfusion h
              · next ds hps' heq3 =>
                  have hkeep : keep = matchesTarget fs t d := by
                    rw [matchesTarget, heq1]
                    exact keepCheck_ok heq2
                  have hds := ih ds hps' heq3
                  rw [List.filter_cons, ← hkeep]
                  split at h
                  · next hkp =>
                      injection h with hh
                      injection hh with h1 h2
                      rw [← h1, hds]
                      have hkt : keep = true := hkp
                      rw [hkt, if_pos rfl, List.map_cons]
                  · next hkp =>
                      injection h with hh
                      injection hh with h1 h2
                      rw [← h1, hds]
                      have hkt : keep = false := by
                        cases keep
                        · rfl
                        · exact absurd rfl hkp
                      rw [hkt]
                      simp

/-- A root with two checkpoint directories (one agreeing with the target
on the target's single key, one not) and one directory without a
checkpoint marker. -/
def egFindFS : FS := [
  ⟨"root/m1", [("model.ckpt.index", .raw),
               ("hparams.json", .jsonFile [("seed", .int 0), ("extra", .int 1)])]⟩,
  ⟨"root/m2", [("model.ckpt.index", .raw),
               ("hparams.json", .jsonFile [("seed", .int 0), ("extra", .int 2)])]⟩,
  ⟨"root/x", [("hparams.json", .jsonFile [("extra", .int 1)])]⟩]

/-- A one-pair target mapping. -/
def egTarget : List (String × HValue) := [("extra", .int 1)]

/-- C2 counterexample: `find_all_models` returns `root/m1` although its
stored hyperparameter mapping `{seed: 0, extra: 1}` is NOT equal to the
target `{extra: 1}` — matching is sub-mapping agreement, not exact
equality, so the claim as stated fails. -/
theorem find_all_models_not_exact_equality :
    find_all_models_dirs egFindFS egTarget = some ["root/m1"] ∧
    find_all_models_exact_spec egFindFS egTarget = [] ∧
    dictEquiv [("seed", .int 0), ("extra", .int 1)] egTarget = false :=
  ⟨rfl, rfl, rfl⟩

/-- C2 (amended): a successful `find_all_models` call returns exactly the
checkpoint directories whose LOADED hyperparameter mapping agrees with
`hp_target` on every key of `hp_target` (the target is a sub-mapping;
directories whose stored mapping strictly extends the target are also
returned). -/
theorem find_all_models_returns_submapping_matches (fs : FS)
    (t : List (String × HValue)) (dirs : List String) (hps : List (Option HP))
    (h : find_all_models fs t = .ok (dirs, hps)) :
    dirs = ((valid_model_dirs fs).filter (matchesTarget fs t)).map
      (fun d => d.path) :=
  find_all_models_aux_dirs fs t (valid_model_dirs fs) dirs hps h

/-- Witness for the amended C2 on the concrete root `egFindFS`. -/
theorem find_all_models_returns_submapping_matches_witness :
    ["root/m1"] = ((valid_model_dirs egFindFS).filter
      (matchesTarget egFindFS egTarget)).map (fun d => d.path) :=
  find_all_models_returns_submapping_matches egFindFS egTarget ["root/m1"]
    [some [("seed", .int 0), ("extra", .int 1), ("rng", .rng 1000)]] (by rfl)

/-! ### C8: `find_model` requires a loadable log -/

theorem fileContent_eq_none_of_not_hasFile {fs : FS} {dir f : String}
    (h : hasFile fs dir f = false) : fileContent fs dir f = none := by
  rw [hasFile] at h
  cases hc : fileContent fs dir f with
  | none => rfl
  | some c => rw [hc] at h; simp at h

/-- C8: when `find_all_models` yields at least one matching directory, a
missing `log.pkl` in the first one makes `find_model` raise (the `None`
log is subscripted); and a successful non-`None` result requires the first
matching directory to hold a loadable log whose `perf_min` entry is a
non-empty number sequence. -/
theorem find_model_requires_nonempty_log (fs : FS)
    (t : List (String × HValue)) (d : String) (ds : List String)
    (hps : List (Option HP))
    (hfind : find_all_models fs t = .ok (d :: ds, hps)) :
    (hasFile fs d "log.pkl" = false → ∃ e, find_model fs t = .error e) ∧
    (∀ p, find_model fs t = .ok (some p) →
      ∃ log l, load_log fs d = .ok (some log) ∧
        dictLookup log "perf_min" = some (.numList l) ∧ l ≠ []) := by
  constructor
  · intro hnolog
    have hll : load_log fs d = .ok none := by
      rw [load_log, fileContent_eq_none_of_not_hasFile hnolog]
    cases hps with
    | nil => exact ⟨"IndexError", by simp [find_model, hfind]⟩
    | cons hpOpt hps' =>
        exact ⟨"TypeError: NoneType is not subscriptable",
          by simp [find_model, hfind, hll]⟩
  · intro p hok
    cases hps with
    | nil => simp [find_model, hfind] at hok
    | cons hpOpt hps' =>
        simp only [find_model, hfind] at hok
        split at hok
        · exact Except.noConfusion hok
        · exact Except.noConfusion hok
        · next log heq =>
            refine ⟨log, ?_⟩
            split at hok
            · exact Except.noConfusion hok
            · next l heq2 =>
                refine ⟨l, heq, heq2, ?_⟩
                split at hok
                · exact Except.noConfusion hok
                · next x heq3 =>
                    cases l with
                    | nil => exact absurd heq3 (by simp)
                    | cons a l' => simp
            · exact Except.noConfusion hok

/-- Witness for C8: in `egFindFS` the first matching directory `root/m1`
has no `log.pkl`, and the conclusions hold there. -/
theorem find_model_requires_nonempty_log_witness :
    (hasFile egFindFS "root/m1" "log.pkl" = false →
      ∃ e, find_model egFindFS egTarget = .error e) ∧
    (∀ p, find_model egFindFS egTarget = .ok (some p) →
      ∃ log l, load_log egFindFS "root/m1" = .ok (some log) ∧
        dictLookup log "perf_min" = some (.numList l) ∧ l ≠ []) :=
  find_model_requires_nonempty_log egFindFS egTarget "root/m1" []
    [some [("seed", .int 0), ("extra", .int 1), ("rng", .rng 1000)]] (by rfl)

/-! ### C5 and C6: `gen_ortho_matrix` base case and determinism -/

/-- C5: for `dim = 1` the loop `for n in range(1, dim)` runs zero times:
whatever the random streams hold (none of them is consumed), the result is
exactly the `1 × 1` identity matrix `[[1.0]]`. -/
theorem gen_ortho_matrix_dim_one (draws : ℕ → ℕ → ℚ) (sqrts : ℕ → ℚ) :
    gen_ortho_matrix 1 draws sqrts = 1 ∧
    gen_ortho_matrix 1 draws sqrts 0 0 = 1 :=
  ⟨rfl, rfl⟩

theorem gen_ortho_step_congr (dim n : ℕ) (x1 x2 : ℕ → ℚ) (s : ℚ)
    (h : ∀ j, j < dim - n + 1 → x1 j = x2 j) :
    gen_ortho_step dim n x1 s = gen_ortho_step dim n x2 s := by
  have h0 : x1 0 = x2 0 := h 0 (by omega)
  have hw : ∀ j, j < dim - n + 1 → houseVec x1 s j = houseVec x2 s j := by
    intro j hj
    rw [houseVec, houseVec, h0]
    by_cases hj0 : j = 0
    · simp [hj0]
    · simp [hj0, h j hj]
  have hsum : sumSq (dim - n + 1) (houseVec x1 s) =
      sumSq (dim - n + 1) (houseVec x2 s) := by
    rw [sumSq, sumSq]
    refine Finset.sum_congr rfl (fun j hj => ?_)
    rw [hw j (Finset.mem_range.mp hj)]
  ext i j
  have hi := i.isLt
  have hj := j.isLt
  simp only [gen_ortho_step, Matrix.of_apply, stepEntry]
  rw [h0, hsum, hw (i.val - (n - 1)) (by omega), hw (j.val - (n - 1)) (by omega)]

theorem foldl_congr_of_mem {α β : Type} (f g : α → β → α) :
    ∀ (l : List β), (∀ b ∈ l, ∀ a, f a b = g a b) →
      ∀ a, l.foldl f a = l.foldl g a := by
  intro l
  induction l with
  | nil => intro _ a; rfl
  | cons b rest ih =>
      intro hl a
      rw [List.foldl_cons, List.foldl_cons, hl b (List.mem_cons_self _ _)]
      exact ih (fun c hc => hl c (List.mem_cons_of_mem _ hc)) _

/-- C6: the generator is a deterministic function of the dimension and of
the random draws it consumes: two runs whose streams agree on every
consumed value (iterations `1 ≤ n < dim`, components `j < dim - n + 1`,
and the square-root oracle) produce identical matrices. -/
theorem gen_ortho_matrix_deterministic (dim : ℕ) (d1 d2 : ℕ → ℕ → ℚ)
    (s1 s2 : ℕ → ℚ)
    (h : ∀ n, 1 ≤ n → n < dim →
      s1 n = s2 n ∧ ∀ j, j < dim - n + 1 → d1 n j = d2 n j) :
    gen_ortho_matrix dim d1 s1 = gen_ortho_matrix dim d2 s2 := by
  rw [gen_ortho_matrix, gen_ortho_matrix]
  refine foldl_congr_of_mem _ _ _ ?_ 1
  intro n hn H
  rw [List.mem_range'] at hn
  have h1 : 1 ≤ n := by omega
  have h2 : n < dim := by omega
  rcases h n h1 h2 with ⟨hs, hd⟩
  rw [hs, gen_ortho_step_congr dim n (d1 n) (d2 n) (s2 n) hd]

/-- A draw stream for `dim = 2` whose sole consumed draw is `(3, 4)`. -/
def egDrawsA : ℕ → ℕ → ℚ := fun n j =>
  if n = 1 ∧ j ≤ 1 then (if j = 0 then 3 else 4) else 5

/-- A second stream agreeing with `egDrawsA` on the consumed values only. -/
def egDrawsB : ℕ → ℕ → ℚ := fun n j =>
  if n = 1 ∧ j ≤ 1 then (if j = 0 then 3 else 4) else 7

/-- The square-root oracle for the draw `(3, 4)`: `sqrt(9 + 16) = 5`. -/
def egSqrts : ℕ → ℚ := fun _ => 5

/-- Witness for C6: the two streams differ (at unconsumed positions) yet
the generated `2 × 2` matrices coincide. -/
theorem gen_ortho_matrix_deterministic_witness :
    gen_ortho_matrix 2 egDrawsA egSqrts = gen_ortho_matrix 2 egDrawsB egSqrts :=
  gen_ortho_matrix_deterministic 2 egDrawsA egDrawsB egSqrts egSqrts
    (by
      intro n h1 h2
      have hn : n = 1 := by omega
      subst hn
      refine ⟨rfl, ?_⟩
      intro j hj
      have hj1 : j ≤ 1 := by omega
      simp [egDrawsA, egDrawsB, hj1])

/-! ### C4: the `multi` re-encoding -/

theorem argmaxAux_lt (l : List ℚ) : ∀ (i bi : ℕ) (bv : ℚ), bi < i →
    argmaxAux l i bi bv < i + l.length := by
  induction l with
  | nil =>
      intro i bi bv h
      rw [argmaxAux, List.length_nil]
      omega
  | cons a rest ih =>
      intro i bi bv h
      rw [argmaxAux, List.length_cons]
      by_cases hc : bv < a
      · rw [if_pos hc]
        have := ih (i + 1) i a (Nat.lt_succ_self i)
        omega
      · rw [if_neg hc]
        have := ih (i + 1) bi bv (Nat.lt_succ_of_lt h)
        omega

theorem np_argmax_lt_length (l : List ℚ) (h : l ≠ []) :
    np_argmax l < l.length := by
  cases l with
  | nil => exact absurd rfl h
  | cons a rest =>
      rw [np_argmax, List.length_cons]
      have := argmaxAux_lt rest 1 0 a Nat.zero_lt_one
      omega

theorem ruleSuffix_length (xin : ℕ → ℕ → ℕ → ℚ) (R F i : ℕ) :
    (ruleSuffix xin R F i).length = F - R := by
  rw [ruleSuffix, List.length_map, List.length_range]

theorem ruleSuffix_ne_nil (xin : ℕ → ℕ → ℕ → ℚ) {R F : ℕ} (i : ℕ)
    (h : R < F) : ruleSuffix xin R F i ≠ [] := by
  intro hnil
  have := congrArg List.length hnil
  rw [ruleSuffix_length, List.length_nil] at this
  omega

theorem ruleOffset_add_le (xin : ℕ → ℕ → ℕ → ℚ) (R C F i : ℕ)
    (hRF : R < F) (hFC : F = R + C) :
    ruleOffset xin R F i + R ≤ R * C := by
  rw [ruleOffset]
  have h1 : np_argmax (ruleSuffix xin R F i) < C := by
    have := np_argmax_lt_length _ (ruleSuffix_ne_nil xin i hRF)
    rw [ruleSuffix_length] at this
    omega
  have h2 : (np_argmax (ruleSuffix xin R F i) + 1) * R ≤ C * R :=
    Nat.mul_le_mul_right R (Nat.succ_le_of_lt h1)
  calc np_argmax (ruleSuffix xin R F i) * R + R
      = (np_argmax (ruleSuffix xin R F i) + 1) * R := by ring
    _ ≤ C * R := h2
    _ = R * C := Nat.mul_comm C R

theorem assign_fold_ok (xin : ℕ → ℕ → ℕ → ℚ) (R C F : ℕ)
    (hRF : R < F) (hFC : F = R + C) :
    ∀ B : ℕ, (List.range B).foldlM (assign_rule_block R C F xin) np_zeros3 =
      Except.ok (fun t i f =>
        if i < B ∧ ruleOffset xin R F i ≤ f ∧ f < ruleOffset xin R F i + R
        then xin t i (f - ruleOffset xin R F i) else 0) := by
  intro B
  induction B with
  | zero =>
      rw [List.range_zero]
      show Except.ok np_zeros3 = _
      have hz : np_zeros3 = (fun (t i f : ℕ) =>
          if i < 0 ∧ ruleOffset xin R F i ≤ f ∧ f < ruleOffset xin R F i + R
          then xin t i (f - ruleOffset xin R F i) else (0 : ℚ)) := by
        funext t i f
        rw [if_neg (fun hc => Nat.not_lt_zero i hc.1)]
        rfl
      rw [hz]
  | succ B ih =>
      rw [List.range_succ, List.foldlM_append, ih]
      have hlt : ¬ F ≤ R := by omega
      have hb := ruleOffset_add_le xin R C F B hRF hFC
      show (List.foldlM (assign_rule_block R C F xin) _ [B]) = _
      rw [List.foldlM_cons]
      simp only [assign_rule_block, if_neg hlt, if_pos hb, List.foldlM_nil]
      show Except.ok _ = _
      congr 1
      funext t i f
      by_cases hib : i = B
      · subst hib
        by_cases hcond : ruleOffset xin R F i ≤ f ∧
            f < ruleOffset xin R F i + R
        · rw [if_pos ⟨rfl, hcond.1, hcond.2⟩,
            if_pos ⟨Nat.lt_succ_self i, hcond.1, hcond.2⟩]
        · have hn1 : ¬ (i = i ∧ ruleOffset xin R F i ≤ f ∧
              f < ruleOffset xin R F i + R) := fun hc => hcond ⟨hc.2.1, hc.2.2⟩
          have hn2 : ¬ (i < i + 1 ∧ ruleOffset xin R F i ≤ f ∧
              f < ruleOffset xin R F i + R) := fun hc => hcond ⟨hc.2.1, hc.2.2⟩
          rw [if_neg hn1, if_neg hn2, if_neg (fun hc => absurd hc.1 (by omega))]
      · rw [if_neg (fun hc => hib hc.1)]
        exact if_congr (and_congr_left' (by omega)) rfl rfl

/-- C4: in `multi` mode, for a trial of shape `[T, B, F]` with
`F = rule_start + n_rule` (`R`-wide stimulus plus one rule-indicator slot
per rule), the produced input tensor has shape `[T, B, R*C]` and, for each
sample, the `R`-wide block at offset `argmax(rule indicators) * R` holds
the sample's original first `R` input components at every timestep, all
other entries being zero. -/
theorem gen_feed_dict_multi {Y M : Type} (trial : Trial Y M) (hparams : HP)
    (T B F R C : ℕ)
    (hshape : trial.xShape = (T, B, F))
    (hin : dictLookup hparams "in_type" = some (.str "multi"))
    (hrs : dictLookup hparams "rule_start" = some (.int (R : ℤ)))
    (hnr : dictLookup hparams "n_rule" = some (.int (C : ℤ)))
    (hF : F = R + C) (hC : 0 < C) :
    gen_feed_dict trial hparams = .ok
      { x := fun t i f =>
          if i < B ∧ ruleOffset trial.x R F i ≤ f ∧
              f < ruleOffset trial.x R F i + R
          then trial.x t i (f - ruleOffset trial.x R F i) else 0,
        xShape := (T, B, R * C),
        y := trial.y,
        c_mask := trial.c_mask } := by
  have hRF : R < F := by omega
  obtain ⟨xf, shp, yv, cv⟩ := trial
  obtain ⟨T0, B0, F0⟩ := shp
  have hshape' : T0 = T ∧ B0 = B ∧ F0 = F := by
    have h1 := congrArg Prod.fst hshape
    have h2 := congrArg (fun p => p.2.1) hshape
    have h3 := congrArg (fun p => p.2.2) hshape
    exact ⟨h1, h2, h3⟩
  obtain ⟨rfl, rfl, rfl⟩ := hshape'
  simp only [gen_feed_dict, hin]
  rw [if_pos trivial]
  simp only [hrs, hnr]
  rw [if_neg (by omega : ¬ ((R : ℤ) < 0 ∨ (C : ℤ) < 0))]
  simp only [Int.toNat_natCast]
  simp only [bind, Except.bind]
  rw [assign_fold_ok xf R C F0 hRF hF B0]
  rw [if_neg (show ¬ (HValue.str "multi" = HValue.str "normal") by decide)]

/-- A concrete trial in `multi` shape `[2, 1, 3]`: one stimulus slot and
two rule-indicator slots. -/
def egMultiTrial : Trial Unit Unit := ⟨fun _ _ f => (f : ℚ), (2, 1, 3), (), ()⟩

/-- Hyperparameters selecting `multi` with `rule_start = 1`, `n_rule = 2`. -/
def egMultiHP : HP :=
  [("in_type", .str "multi"), ("rule_start", .int 1), ("n_rule", .int 2)]

/-- Witness for C4 at the concrete trial and hyperparameters. -/
theorem gen_feed_dict_multi_witness :
    gen_feed_dict egMultiTrial egMultiHP = .ok
      { x := fun t i f =>
          if i < 1 ∧ ruleOffset egMultiTrial.x 1 3 i ≤ f ∧
              f < ruleOffset egMultiTrial.x 1 3 i + 1
          then egMultiTrial.x t i (f - ruleOffset egMultiTrial.x 1 3 i) else 0,
        xShape := (2, 1, 1 * 2),
        y := egMultiTrial.y,
        c_mask := egMultiTrial.c_mask } :=
  gen_feed_dict_multi egMultiTrial egMultiHP 2 1 3 1 2 rfl rfl rfl rfl rfl
    (by omega)

/-! ### C1: orthogonality of `gen_ortho_matrix` -/

theorem npSign_mul_self {q : ℚ} (h : q ≠ 0) : npSign q * npSign q = 1 := by
  rw [npSign]
  rcases lt_trichotomy 0 q with hlt | heq | hgt
  · rw [if_pos hlt]
    norm_num
  · exact absurd heq.symm h
  · rw [if_neg (by linarith), if_pos hgt]
    norm_num

theorem perturbed_ne {x0 s : ℚ} (hx : x0 ≠ 0) (hs : 0 ≤ s) :
    x0 + npSign x0 * s ≠ 0 := by
  rw [npSign]
  rcases lt_trichotomy 0 x0 with hlt | heq | hgt
  · rw [if_pos hlt]
    intro hcon
    linarith
  · exact absurd heq.symm hx
  · rw [if_neg (by linarith : ¬ 0 < x0), if_pos hgt]
    intro hcon
    linarith

theorem houseVec_zero_ne {x : ℕ → ℚ} {s : ℚ} (hx : x 0 ≠ 0) (hs : 0 ≤ s) :
    houseVec x s 0 ≠ 0 := by
  have hv : houseVec x s 0 = x 0 + npSign (x 0) * s := rfl
  rw [hv]
  exact perturbed_ne hx hs

theorem sumSq_pos {k : ℕ} {w : ℕ → ℚ} (hk : 0 < k) (hw : w 0 ≠ 0) :
    0 < sumSq k w := by
  rw [sumSq]
  have h0 : (0 : ℚ) < w 0 * w 0 := mul_self_pos.mpr hw
  have hle : w 0 * w 0 ≤ ∑ j ∈ Finset.range k, w j * w j :=
    Finset.single_le_sum (f := fun j => w j * w j)
      (fun j _ => mul_self_nonneg (w j)) (Finset.mem_range.mpr hk)
  linarith

theorem stepEntry_orth (dim n : ℕ) (x : ℕ → ℚ) (s : ℚ)
    (hn1 : 1 ≤ n) (hn2 : n < dim) (hx : x 0 ≠ 0) (hs : 0 ≤ s)
    (a b : ℕ) (ha : a < dim) (hb : b < dim) :
    ∑ k ∈ Finset.range dim, stepEntry dim n x s a k * stepEntry dim n x s b k
      = if a = b then 1 else 0 := by
  have hD : npSign (x 0) * npSign (x 0) = 1 := npSign_mul_self hx
  have hw0 : houseVec x s 0 ≠ 0 := houseVec_zero_ne hx hs
  have hcpos : 0 < sumSq (dim - n + 1) (houseVec x s) :=
    sumSq_pos (by omega) hw0
  have hc0 : sumSq (dim - n + 1) (houseVec x s) ≠ 0 := ne_of_gt hcpos
  by_cases hia : n - 1 ≤ a
  · by_cases hib : n - 1 ≤ b
    · -- both rows in the Householder block
      have hsplit : ∑ k ∈ Finset.range dim,
          stepEntry dim n x s a k * stepEntry dim n x s b k
          = ∑ k ∈ Finset.Ico 0 (n - 1),
              stepEntry dim n x s a k * stepEntry dim n x s b k
            + ∑ k ∈ Finset.Ico (n - 1) dim,
              stepEntry dim n x s a k * stepEntry dim n x s b k := by
        rw [Finset.range_eq_Ico,
          ← Finset.sum_Ico_consecutive _ (Nat.zero_le (n - 1))
            (by omega : n - 1 ≤ dim)]
      have hzero : ∑ k ∈ Finset.Ico 0 (n - 1),
          stepEntry dim n x s a k * stepEntry dim n x s b k = 0 := by
        refine Finset.sum_eq_zero fun k hk => ?_
        rw [Finset.mem_Ico] at hk
        have hkn : ¬ (n - 1 ≤ a ∧ n - 1 ≤ k) := fun hcc => by omega
        rw [stepEntry, if_neg hkn, if_neg (by omega : ¬ a = k), zero_mul]
      have hentry : ∀ e : ℕ, n - 1 ≤ e → ∀ u : ℕ,
          stepEntry dim n x s e (n - 1 + u) =
          -npSign (x 0) * ((if e - (n - 1) = u then (1 : ℚ) else 0)
            - 2 * houseVec x s (e - (n - 1)) * houseVec x s u
              / sumSq (dim - n + 1) (houseVec x s)) := by
        intro e he u
        rw [stepEntry, if_pos ⟨he, Nat.le_add_right _ _⟩,
          Nat.add_sub_cancel_left]
        have hif : (if e = n - 1 + u then (1 : ℚ) else 0) =
            (if e - (n - 1) = u then 1 else 0) :=
          if_congr (by omega) rfl rfl
        rw [hif]
      have hDD : ∀ X Y : ℚ,
          (-npSign (x 0) * X) * (-npSign (x 0) * Y) = X * Y := by
        intro X Y
        calc (-npSign (x 0) * X) * (-npSign (x 0) * Y)
            = (npSign (x 0) * npSign (x 0)) * (X * Y) := by ring
          _ = X * Y := by rw [hD, one_mul]
      have hexpand : ∀ u : ℕ,
          ((if a - (n - 1) = u then (1 : ℚ) else 0)
            - 2 * houseVec x s (a - (n - 1)) * houseVec x s u
              / sumSq (dim - n + 1) (houseVec x s)) *
          ((if b - (n - 1) = u then (1 : ℚ) else 0)
            - 2 * houseVec x s (b - (n - 1)) * houseVec x s u
              / sumSq (dim - n + 1) (houseVec x s))
          = ((if a - (n - 1) = u then (1 : ℚ) else 0) *
              (if b - (n - 1) = u then 1 else 0))
            - (2 * houseVec x s (b - (n - 1))
                / sumSq (dim - n + 1) (houseVec x s)) *
              ((if a - (n - 1) = u then (1 : ℚ) else 0) * houseVec x s u)
            - (2 * houseVec x s (a - (n - 1))
                / sumSq (dim - n + 1) (houseVec x s)) *
              ((if b - (n - 1) = u then (1 : ℚ) else 0) * houseVec x s u)
            + (2 * houseVec x s (a - (n - 1))
                / sumSq (dim - n + 1) (houseVec x s)) *
              (2 * houseVec x s (b - (n - 1))
                / sumSq (dim - n + 1) (houseVec x s)) *
              (houseVec x s u * houseVec x s u) := by
        intro u
        ring
      have hcong : ∀ u ∈ Finset.range (dim - (n - 1)),
          stepEntry dim n x s a (n - 1 + u) * stepEntry dim n x s b (n - 1 + u)
          = ((if a - (n - 1) = u then (1 : ℚ) else 0) *
              (if b - (n - 1) = u then 1 else 0))
            - (2 * houseVec x s (b - (n - 1))
                / sumSq (dim - n + 1) (houseVec x s)) *
              ((if a - (n - 1) = u then (1 : ℚ) else 0) * houseVec x s u)
            - (2 * houseVec x s (a - (n - 1))
                / sumSq (dim - n + 1) (houseVec x s)) *
              ((if b - (n - 1) = u then (1 : ℚ) else 0) * houseVec x s u)
            + (2 * houseVec x s (a - (n - 1))
                / sumSq (dim - n + 1) (houseVec x s)) *
              (2 * houseVec x s (b - (n - 1))
                / sumSq (dim - n + 1) (houseVec x s)) *
              (houseVec x s u * houseVec x s u) := by
        intro u _
        rw [hentry a hia u, hentry b hib u, hDD]
        exact hexpand u
      have hS1 : ∑ u ∈ Finset.range (dim - (n - 1)),
          ((if a - (n - 1) = u then (1 : ℚ) else 0) *
            (if b - (n - 1) = u then 1 else 0))
          = if a = b then 1 else 0 := by
        have hpt : ∀ u ∈ Finset.range (dim - (n - 1)),
            ((if a - (n - 1) = u then (1 : ℚ) else 0) *
              (if b - (n - 1) = u then 1 else 0))
            = if a - (n - 1) = u then
                (if b - (n - 1) = u then (1 : ℚ) else 0) else 0 := by
          intro u _
          by_cases h1 : a - (n - 1) = u
          · rw [if_pos h1, if_pos h1, one_mul]
          · rw [if_neg h1, if_neg h1, zero_mul]
        rw [Finset.sum_congr rfl hpt, Finset.sum_ite_eq,
          if_pos (Finset.mem_range.mpr (by omega : a - (n - 1) < dim - (n - 1)))]
        exact if_congr (by omega) rfl rfl
      have hS2 : ∑ u ∈ Finset.range (dim - (n - 1)),
          ((if a - (n - 1) = u then (1 : ℚ) else 0) * houseVec x s u)
          = houseVec x s (a - (n - 1)) := by
        have hpt : ∀ u ∈ Finset.range (dim - (n - 1)),
            ((if a - (n - 1) = u then (1 : ℚ) else 0) * houseVec x s u)
            = if a - (n - 1) = u then houseVec x s u else 0 := by
          intro u _
          by_cases h1 : a - (n - 1) = u
          · rw [if_pos h1, if_pos h1, one_mul]
          · rw [if_neg h1, if_neg h1, zero_mul]
        rw [Finset.sum_congr rfl hpt, Finset.sum_ite_eq,
          if_pos (Finset.mem_range.mpr (by omega : a - (n - 1) < dim - (n - 1)))]
      have hS3 : ∑ u ∈ Finset.range (dim - (n - 1)),
          ((if b - (n - 1) = u then (1 : ℚ) else 0) * houseVec x s u)
          = houseVec x s (b - (n - 1)) := by
        have hpt : ∀ u ∈ Finset.range (dim - (n - 1)),
            ((if b - (n - 1) = u then (1 : ℚ) else 0) * houseVec x s u)
            = if b - (n - 1) = u then houseVec x s u else 0 := by
          intro u _
          by_cases h1 : b - (n - 1) = u
          · rw [if_pos h1, if_pos h1, one_mul]
          · rw [if_neg h1, if_neg h1, zero_mul]
        rw [Finset.sum_congr rfl hpt, Finset.sum_ite_eq,
          if_pos (Finset.mem_range.mpr (by omega : b - (n - 1) < dim - (n - 1)))]
      have hS4 : ∑ u ∈ Finset.range (dim - (n - 1)),
          (houseVec x s u * houseVec x s u)
          = sumSq (dim - n + 1) (houseVec x s) := by
        rw [(by omega : dim - (n - 1) = dim - n + 1)]
        rfl
      rw [hsplit, hzero, zero_add, Finset.sum_Ico_eq_sum_range,
        Finset.sum_congr rfl hcong, Finset.sum_add_distrib,
        Finset.sum_sub_distrib, Finset.sum_sub_distrib,
        ← Finset.mul_sum, ← Finset.mul_sum, ← Finset.mul_sum,
        hS1, hS2, hS3, hS4]
      field_simp
      by_cases hab : a = b
      · rw [if_pos hab, if_pos hab]
        ring
      · rw [if_neg hab, if_neg hab]
        ring
    · -- column part outside: the second factor is an identity row
      have hfb : ∀ k : ℕ, stepEntry dim n x s b k = if b = k then 1 else 0 := by
        intro k
        rw [stepEntry, if_neg (fun hcc => hib hcc.1)]
      have hstep : ∀ k ∈ Finset.range dim,
          stepEntry dim n x s a k * stepEntry dim n x s b k =
          if b = k then stepEntry dim n x s a k else 0 := by
        intro k _
        rw [hfb k]
        by_cases hbk : b = k
        · rw [if_pos hbk, if_pos hbk, mul_one]
        · rw [if_neg hbk, if_neg hbk, mul_zero]
      rw [Finset.sum_congr rfl hstep, Finset.sum_ite_eq,
        if_pos (Finset.mem_range.mpr hb), stepEntry,
        if_neg (fun hcc => hib hcc.2)]
  · -- first factor is an identity row
    have hfa : ∀ k : ℕ, stepEntry dim n x s a k = if a = k then 1 else 0 := by
      intro k
      rw [stepEntry, if_neg (fun hcc => hia hcc.1)]
    have hstep : ∀ k ∈ Finset.range dim,
        stepEntry dim n x s a k * stepEntry dim n x s b k =
        if a = k then stepEntry dim n x s b k else 0 := by
      intro k _
      rw [hfa k]
      by_cases hak : a = k
      · rw [if_pos hak, if_pos hak, one_mul]
      · rw [if_neg hak, if_neg hak, zero_mul]
    rw [Finset.sum_congr rfl hstep, Finset.sum_ite_eq,
      if_pos (Finset.mem_range.mpr ha), stepEntry,
      if_neg (fun hcc => hia hcc.2)]
    exact if_congr eq_comm rfl rfl

open Matrix

theorem gen_ortho_step_orth (dim n : ℕ) (hn1 : 1 ≤ n) (hn2 : n < dim)
    (x : ℕ → ℚ) (s : ℚ) (hx : x 0 ≠ 0) (hs : 0 ≤ s) :
    gen_ortho_step dim n x s * (gen_ortho_step dim n x s)ᵀ = 1 := by
  ext i j
  rw [Matrix.mul_apply, Matrix.one_apply]
  have hpt : ∀ k : Fin dim,
      gen_ortho_step dim n x s i k * (gen_ortho_step dim n x s)ᵀ k j =
      stepEntry dim n x s i.val k.val * stepEntry dim n x s j.val k.val := by
    intro k
    rw [Matrix.transpose_apply]
    rfl
  rw [Finset.sum_congr rfl (fun k _ => hpt k)]
  rw [Fin.sum_univ_eq_sum_range
    (fun k => stepEntry dim n x s i.val k * stepEntry dim n x s j.val k) dim]
  rw [stepEntry_orth dim n x s hn1 hn2 hx hs i.val j.val i.isLt j.isLt]
  exact if_congr Fin.val_inj rfl rfl

theorem foldl_mul_orth (dim : ℕ) (f : ℕ → Matrix (Fin dim) (Fin dim) ℚ) :
    ∀ (l : List ℕ), (∀ n ∈ l, f n * (f n)ᵀ = 1) →
      ∀ H : Matrix (Fin dim) (Fin dim) ℚ, H * Hᵀ = 1 →
      (l.foldl (fun H n => H * f n) H) *
        (l.foldl (fun H n => H * f n) H)ᵀ = 1 := by
  intro l
  induction l with
  | nil => intro _ H hH; exact hH
  | cons m rest ih =>
      intro hl H hH
      rw [List.foldl_cons]
      refine ih (fun k hk => hl k (List.mem_cons_of_mem _ hk)) _ ?_
      rw [Matrix.transpose_mul, ← Matrix.mul_assoc, Matrix.mul_assoc H,
        hl m (List.mem_cons_self _ _), Matrix.mul_one, hH]

/-- C1: over the exact-arithmetic idealization (rational draws, the
`np.sqrt` oracle an exact nonnegative square root of the draw's sum of
squares) and for draws whose leading component is nonzero (`np.sign(0) = 0`
degenerates the reflection, an event of probability zero), the generator
returns a `dim × dim` matrix `M` with `M * Mᵀ` exactly the identity, for
every `dim ≥ 1`. -/
theorem gen_ortho_matrix_orthogonal (dim : ℕ) (hdim : 1 ≤ dim)
    (draws : ℕ → ℕ → ℚ) (sqrts : ℕ → ℚ)
    (h : ∀ n, 1 ≤ n → n < dim → draws n 0 ≠ 0 ∧ 0 ≤ sqrts n ∧
      sqrts n * sqrts n = sumSq (dim - n + 1) (draws n)) :
    gen_ortho_matrix dim draws sqrts *
      (gen_ortho_matrix dim draws sqrts)ᵀ = 1 := by
  rw [gen_ortho_matrix]
  refine foldl_mul_orth dim _ _ ?_ 1 ?_
  · intro m hm
    rw [List.mem_range'] at hm
    have h1 : 1 ≤ m := by omega
    have h2 : m < dim := by omega
    rcases h m h1 h2 with ⟨hx, hs, _⟩
    exact gen_ortho_step_orth dim m h1 h2 (draws m) (sqrts m) hx hs
  · rw [Matrix.transpose_one, Matrix.mul_one]

/-- Witness for C1 at `dim = 2` with the draw `(3, 4)` and exact square
root `5`. -/
theorem gen_ortho_matrix_orthogonal_witness :
    gen_ortho_matrix 2 egDrawsA egSqrts *
      (gen_ortho_matrix 2 egDrawsA egSqrts)ᵀ = 1 :=
  gen_ortho_matrix_orthogonal 2 (by norm_num) egDrawsA egSqrts
    (by
      intro n h1 h2
      have hn : n = 1 := by omega
      subst hn
      refine ⟨by norm_num [egDrawsA], by norm_num [egSqrts], ?_⟩
      norm_num [egSqrts, egDrawsA, sumSq, Finset.sum_range_succ])
